import Mathlib

/-!
# The UDP broadcast listener's record decoder and receive loop

A shallow embedding of `parseBinaryMessage` and of the receive loop of `main` from
`udp_listener.go`, with the properties their specification states about them.

Modelling conventions.

* A Go `byte` is a `Fin 256`; a `[]byte` and a Go `string` are both a
  `List Byte` (a Go string is an immutable byte sequence, and
  `string(data[a:b])` copies the bytes `data[a], ..., data[b-1]`).
* Go `int` is taken to be 64 bits wide.  `int(x)` of a `uint32` is then the
  same non-negative number, and the sums `offset + n` the decoder forms stay
  far below `2^63`, so offsets and lengths are natural numbers.
* `uint32` and `uint64` values are natural numbers below `2^32` and `2^64`;
  `int64` values are integers in `[-2^63, 2^63)`.
* The function returns only an `error`; what it decoded it prints on
  standard output.  The process state it can touch is made explicit: the
  bytes behind the slice it is given and the lines written to standard
  output so far.
* A printed line is kept by the value it shows; its text, which for the
  `Last Seen` line depends on the process's local time zone, is given
  separately by `Line.printed`.
* The loop of `main` is a step function over the reads it performs; the
  socket is outside the model, and `conn.ReadFrom` is described by what it
  delivers and by what it does to the buffer.
-/

namespace UdpListener

/-- A Go `byte`. -/
abbrev Byte := Fin 256

/-- The errors `parseBinaryMessage` builds with `fmt.Errorf`, one constructor per
call, in source order. -/
inductive ParseError where
  | packetTooShort
  | emailLength
  | email
  | lastSeen
  | ipLength
  | ip
  | port
  deriving DecidableEq, Repr

/-- The text given to `fmt.Errorf` at each error return. -/
def ParseError.message : ParseError → String
  | .packetTooShort => "packet too short"
  | .emailLength => "insufficient data for email length"
  | .email => "insufficient data for email"
  | .lastSeen => "insufficient data for lastSeen"
  | .ipLength => "insufficient data for IP length"
  | .ip => "insufficient data for IP"
  | .port => "insufficient data for port"

/-- The specification's names for the errors: `PacketTooShort` is the coarse
pre-check, every other error is of a `Truncated*` kind (`TruncatedHeader` for the
email length, `TruncatedField name` for the rest). -/
def ParseError.isTruncated : ParseError → Bool
  | .packetTooShort => false
  | _ => true

/-- How a call of the Go function ends: it returns `nil`, it returns an error, or a
slice expression or index is out of range and the runtime panics. -/
inductive Result where
  | nil
  | err (e : ParseError)
  | panicked
  deriving DecidableEq, Repr

/-- One line printed by the four `fmt.Printf` calls that end a successful decode.
The line is identified by the value it formats; `lastSeen` carries the instant
(`time.Time`) as nanoseconds since the Unix epoch. -/
inductive Line where
  | email (s : List Byte)
  | lastSeen (t : Int)
  | ipAddress (s : List Byte)
  | port (n : Nat)
  deriving DecidableEq, Repr

/-- The state a call of `parseBinaryMessage` can reach: the bytes of the slice
`data` it is handed (shared with the caller, so a write through the slice would be
visible) and the lines printed on standard output so far. -/
structure Process where
  data : List Byte
  stdout : List Line
  deriving DecidableEq, Repr

/-- The Go slice expression `data[lo:hi]`: the bytes `data[lo], ..., data[hi-1]`,
or `none` when the runtime would panic.  Go allows `hi` up to the capacity; the
decoder compares every upper bound with `len(data)` first, and the model checks
the bound against the length. -/
def slice (data : List Byte) (lo hi : Nat) : Option (List Byte) :=
  if lo ≤ hi ∧ hi ≤ data.length then some ((data.drop lo).take (hi - lo)) else none

/-- The library function `binary.BigEndian.Uint32`:
`uint32(b[3]) | uint32(b[2])<<8 | uint32(b[1])<<16 | uint32(b[0])<<24`,
after the bounds check `_ = b[3]`, which panics on fewer than four bytes. -/
def BigEndian.Uint32 : List Byte → Option Nat
  | b0 :: b1 :: b2 :: b3 :: _ =>
    some ((b3.val ||| b2.val <<< 8 ||| b1.val <<< 16 ||| b0.val <<< 24) % 2 ^ 32)
  | _ => none

/-- The library function `binary.BigEndian.Uint64`:
`uint64(b[7]) | uint64(b[6])<<8 | ... | uint64(b[0])<<56`, after the bounds check
`_ = b[7]`. -/
def BigEndian.Uint64 : List Byte → Option Nat
  | b0 :: b1 :: b2 :: b3 :: b4 :: b5 :: b6 :: b7 :: _ =>
    some ((b7.val ||| b6.val <<< 8 ||| b5.val <<< 16 ||| b4.val <<< 24 |||
      b3.val <<< 32 ||| b2.val <<< 40 ||| b1.val <<< 48 ||| b0.val <<< 56) % 2 ^ 64)
  | _ => none

/-- The Go conversion `int64(x)`: the value is wrapped into `[-2^63, 2^63)`
modulo `2^64`. -/
def int64 (x : Int) : Int := (x + 2 ^ 63) % 2 ^ 64 - 2 ^ 63

/-- The library call `time.Unix(sec, nsec)`: the instant `sec` seconds and `nsec`
nanoseconds after the Unix epoch, kept as nanoseconds since the epoch. -/
def timeUnix (sec nsec : Int) : Int := sec * 1000000000 + nsec

/-- The function `parseBinaryMessage(data []byte) error`, as a transition of the
process state: the result it returns and the state it leaves. -/
def parseBinaryMessage (p : Process) : Process × Result :=
  let data := p.data
  if data.length < 16 then (p, .err .packetTooShort) else
  let offset := 0
  -- Read email length (4 bytes, big-endian)
  if offset + 4 > data.length then (p, .err .emailLength) else
  match (slice data offset (offset + 4)).bind BigEndian.Uint32 with
  | none => (p, .panicked)
  | some emailLen =>
  let offset := offset + 4
  -- Read email
  if offset + emailLen > data.length then (p, .err .email) else
  match slice data offset (offset + emailLen) with
  | none => (p, .panicked)
  | some email =>
  let offset := offset + emailLen
  -- Read lastSeen (8 bytes, big-endian, nanoseconds since Unix epoch)
  if offset + 8 > data.length then (p, .err .lastSeen) else
  match (slice data offset (offset + 8)).bind BigEndian.Uint64 with
  | none => (p, .panicked)
  | some u =>
  let lastSeenNanos := int64 u
  let offset := offset + 8
  let lastSeenTime := timeUnix 0 lastSeenNanos
  -- Read IP length (4 bytes, big-endian)
  if offset + 4 > data.length then (p, .err .ipLength) else
  match (slice data offset (offset + 4)).bind BigEndian.Uint32 with
  | none => (p, .panicked)
  | some ipLen =>
  let offset := offset + 4
  -- Read IP
  if offset + ipLen > data.length then (p, .err .ip) else
  match slice data offset (offset + ipLen) with
  | none => (p, .panicked)
  | some ip =>
  let offset := offset + ipLen
  -- Read port (4 bytes, big-endian)
  if offset + 4 > data.length then (p, .err .port) else
  match (slice data offset (offset + 4)).bind BigEndian.Uint32 with
  | none => (p, .panicked)
  | some port =>
  -- Print parsed data
  ({ p with stdout := p.stdout ++
      [.email email, .lastSeen lastSeenTime, .ipAddress ip, .port port] }, .nil)

/-! ## Vocabulary of the specification -/

/-- The decoded record of the specification: the four values a successful decode
reports, `lastSeen` as signed nanoseconds since the Unix epoch. -/
structure Record where
  email : List Byte
  lastSeen : Int
  ip : List Byte
  port : Nat
  deriving DecidableEq, Repr

/-- The report of a record: the four lines a successful decode prints. -/
def Record.report (r : Record) : List Line :=
  [.email r.email, .lastSeen r.lastSeen, .ipAddress r.ip, .port r.port]

/-- The process after a successful decode that yields `r`: the report of `r` is
appended to standard output and nothing else changes. -/
def Process.reported (p : Process) (r : Record) : Process :=
  { p with stdout := p.stdout ++ r.report }

/-- The numeric value of byte `i` of a buffer (0 beyond its end). -/
def byteAt (b : List Byte) (i : Nat) : Nat := (b.getD i 0).val

/-- The big-endian unsigned 32-bit integer at bytes `off .. off+3`. -/
def u32At (b : List Byte) (off : Nat) : Nat :=
  byteAt b off * 2 ^ 24 + byteAt b (off + 1) * 2 ^ 16 + byteAt b (off + 2) * 2 ^ 8
    + byteAt b (off + 3)

/-- The big-endian unsigned 64-bit integer at bytes `off .. off+7`. -/
def u64At (b : List Byte) (off : Nat) : Nat :=
  byteAt b off * 2 ^ 56 + byteAt b (off + 1) * 2 ^ 48 + byteAt b (off + 2) * 2 ^ 40
    + byteAt b (off + 3) * 2 ^ 32 + byteAt b (off + 4) * 2 ^ 24
    + byteAt b (off + 5) * 2 ^ 16 + byteAt b (off + 6) * 2 ^ 8 + byteAt b (off + 7)

/-- The bytes `b[lo .. hi)` of a buffer. -/
def bytesAt (b : List Byte) (lo hi : Nat) : List Byte := (b.drop lo).take (hi - lo)

/-- The two's-complement signed 64-bit reading of the eight big-endian bytes at
`off .. off+7`: the unsigned value `u` when `u < 2^63`, and `u - 2^64` otherwise. -/
def s64At (b : List Byte) (off : Nat) : Int :=
  if u64At b off < 2 ^ 63 then (u64At b off : Int) else (u64At b off : Int) - 2 ^ 64

/-- The declared email length `E` of a buffer: the big-endian `uint32` at bytes 0..3. -/
def emailLenOf (b : List Byte) : Nat := u32At b 0

/-- The declared ip length `I` of a buffer: the big-endian `uint32` at bytes
`12+E .. 15+E`. -/
def ipLenOf (b : List Byte) : Nat := u32At b (12 + emailLenOf b)

/-- The record laid out in a buffer in wire order, with no gaps or overlaps:
email `b[4 .. 4+E)`, lastSeen from `b[4+E .. 12+E)`, ip `b[16+E .. 16+E+I)` and port
from `b[16+E+I .. 20+E+I)`. -/
def fieldsOf (b : List Byte) : Record :=
  { email := bytesAt b 4 (4 + emailLenOf b)
    lastSeen := s64At b (4 + emailLenOf b)
    ip := bytesAt b (16 + emailLenOf b) (16 + emailLenOf b + ipLenOf b)
    port := u32At b (16 + emailLenOf b + ipLenOf b) }

/-- Byte number `k` (0 the least significant) of a natural number. -/
def natByte (n k : Nat) : Byte := ⟨n / 2 ^ (8 * k) % 256, Nat.mod_lt _ (by decide)⟩

/-- Modelled from the spec: BE32, a 4-byte big-endian unsigned integer of the wire
format of section 6 (the sender that encodes records is not part of the
source). -/
def be32 (n : Nat) : List Byte := [natByte n 3, natByte n 2, natByte n 1, natByte n 0]

/-- Modelled from the spec: BE64, the 8-byte big-endian two's-complement form of
a signed 64-bit integer, as in the wire format of section 6. -/
def be64 (t : Int) : List Byte :=
  let u := (t % 2 ^ 64).toNat
  [natByte u 7, natByte u 6, natByte u 5, natByte u 4,
   natByte u 3, natByte u 2, natByte u 1, natByte u 0]

/-- Modelled from the spec: the wire layout of section 6,
`[4 bytes emailLength][email][8 bytes lastSeenNanos][4 bytes ipLength][ip][4 bytes port]`. -/
def encode (r : Record) : List Byte :=
  be32 r.email.length ++ r.email ++ be64 r.lastSeen ++ be32 r.ip.length ++ r.ip
    ++ be32 r.port

/-- A tuple the wire format can carry: both lengths and the port fit 32 bits and
the timestamp fits a signed 64-bit integer. -/
def Record.Valid (r : Record) : Prop :=
  r.email.length < 2 ^ 32 ∧ r.ip.length < 2 ^ 32 ∧
    -2 ^ 63 ≤ r.lastSeen ∧ r.lastSeen < 2 ^ 63 ∧ r.port < 2 ^ 32

instance (r : Record) : Decidable r.Valid := by
  unfold Record.Valid; infer_instance

/-- Scenario A of the specification. -/
def scenarioA : Record :=
  { email := [97, 64, 98, 46, 99, 111, 109]
    lastSeen := 1700000000000000000
    ip := [49, 57, 50, 46, 49, 54, 56, 46, 49, 46, 49]
    port := 8080 }

/-- Scenario B of the specification. -/
def scenarioB : Record := { email := [], lastSeen := 0, ip := [], port := 0 }

/-- A 20-byte frame with empty email and ip, port 0, and a timestamp of eight `0xFF`
bytes. -/
def allOnesFrame : List Byte :=
  [0, 0, 0, 0, 255, 255, 255, 255, 255, 255, 255, 255, 0, 0, 0, 0, 0, 0, 0, 0]

/-- The slice expressions `data[lo:hi]` that `parseBinaryMessage` evaluates on `data`,
as pairs `(lo, hi)` in the order of evaluation: the control flow of the function, with
each slice expression recorded where it is evaluated and the walk ending where the
function returns or panics. -/
def sliceExprs (data : List Byte) : List (Nat × Nat) :=
  if data.length < 16 then [] else
  let offset := 0
  if offset + 4 > data.length then [] else
  (offset, offset + 4) ::
  match (slice data offset (offset + 4)).bind BigEndian.Uint32 with
  | none => []
  | some emailLen =>
  let offset := offset + 4
  if offset + emailLen > data.length then [] else
  (offset, offset + emailLen) ::
  match slice data offset (offset + emailLen) with
  | none => []
  | some _ =>
  let offset := offset + emailLen
  if offset + 8 > data.length then [] else
  (offset, offset + 8) ::
  match (slice data offset (offset + 8)).bind BigEndian.Uint64 with
  | none => []
  | some _ =>
  let offset := offset + 8
  if offset + 4 > data.length then [] else
  (offset, offset + 4) ::
  match (slice data offset (offset + 4)).bind BigEndian.Uint32 with
  | none => []
  | some ipLen =>
  let offset := offset + 4
  if offset + ipLen > data.length then [] else
  (offset, offset + ipLen) ::
  match slice data offset (offset + ipLen) with
  | none => []
  | some _ =>
  let offset := offset + ipLen
  if offset + 4 > data.length then [] else
  [(offset, offset + 4)]

/-! ## The receive loop of `main` -/

/-- What one call `conn.ReadFrom(buffer)` of the loop delivers: a datagram with its
payload and the sender's address (`err == nil`), or a failure (`err != nil`) with the
error's text and whatever bytes the failed read put into the buffer before it failed. -/
inductive ReadEvent where
  | packet (payload : List Byte) (addr : String)
  | failed (err : String) (written : List Byte)
  deriving DecidableEq, Repr

/-- A line the loop writes: `errorReadingPacket` goes to standard error, the others to
standard output.  `decoded` is a line printed by `parseBinaryMessage`. -/
inductive Output where
  | errorReadingPacket (err : String)
  | receivedBroadcast
  | sender (addr : String)
  | decoded (l : Line)
  | errorParsingMessage (e : ParseError)
  | blank
  deriving DecidableEq, Repr

/-- The state of the loop `for { ... }` of `main`: the receive buffer
`buffer := make([]byte, 1024)`, reused by every iteration, the lines written to standard
output and to standard error since the loop was entered, and whether the process is still
running (a panic ends it).  `calls` is a ghost record of the arguments
`parseBinaryMessage` was called with, oldest first. -/
structure Listener where
  buffer : List Byte
  stdout : List Output
  stderr : List Output
  calls : List (List Byte)
  running : Bool
  deriving DecidableEq, Repr

/-- The library call `conn.ReadFrom(buffer)` on a UDP socket, for a datagram with the given
payload: the payload is copied to the front of the buffer, cut at the buffer's length, the
rest of the buffer keeps its bytes, and the number of bytes filled is returned. -/
def readFrom (buffer payload : List Byte) : Nat × List Byte :=
  let n := min payload.length buffer.length
  (n, payload.take n ++ buffer.drop n)

/-- One iteration of the loop of `main`, for the read it performs.  The lines
`parseBinaryMessage` prints go to the same standard output as the loop's own. -/
def step (s : Listener) (ev : ReadEvent) : Listener :=
  if s.running then
    match ev with
    | .failed err written =>
      -- err != nil: report on standard error and continue
      { s with
        buffer := (readFrom s.buffer written).2
        stderr := s.stderr ++ [.errorReadingPacket err] }
    | .packet payload addr =>
      let (n, buffer) := readFrom s.buffer payload
      let stdout := s.stdout ++ [.receivedBroadcast, .sender addr]
      -- parseBinaryMessage(buffer[:n])
      match slice buffer 0 n with
      | none => { s with buffer := buffer, stdout := stdout, running := false }
      | some data =>
        let (q, res) := parseBinaryMessage ⟨data, []⟩
        let buffer := q.data ++ buffer.drop n
        let stdout := stdout ++ q.stdout.map .decoded
        let calls := s.calls ++ [data]
        match res with
        | .nil =>
          { buffer, stdout := stdout ++ [.blank], stderr := s.stderr, calls, running := true }
        | .err e =>
          { buffer, stdout := stdout ++ [.errorParsingMessage e, .blank], stderr := s.stderr,
            calls, running := true }
        | .panicked =>
          { buffer, stdout, stderr := s.stderr, calls, running := false }
  else s

/-- The loop run over the reads it performs, in order. -/
def run (s : Listener) (evs : List ReadEvent) : Listener := evs.foldl step s

/-- The block of lines printed on standard output for one received packet, as a function of
the bytes handed to the decoder and of the sender's address: the banner, the sender, the
decoded fields or the decode error, and the closing blank line. -/
def packetReport (data : List Byte) (addr : String) : List Output :=
  [.receivedBroadcast, .sender addr]
    ++ (parseBinaryMessage ⟨data, []⟩).1.stdout.map .decoded
    ++ (match (parseBinaryMessage ⟨data, []⟩).2 with
        | .err e => [.errorParsingMessage e]
        | _ => [])
    ++ [.blank]

/-- The report of one read on standard output. -/
def eventStdout : ReadEvent → List Output
  | .packet payload addr => packetReport (payload.take 1024) addr
  | .failed _ _ => []

/-- The report of one read on standard error. -/
def eventStderr : ReadEvent → List Output
  | .packet _ _ => []
  | .failed err _ => [.errorReadingPacket err]

/-- The argument of the decoder call one read leads to, if any. -/
def eventCall : ReadEvent → Option (List Byte)
  | .packet payload _ => some (payload.take 1024)
  | .failed _ _ => none

/-- A listener entering the loop, nothing written yet. -/
def freshListener : Listener :=
  { buffer := List.replicate 1024 0, stdout := [], stderr := [], calls := [], running := true }

/-- A sender address, as `addr.String()` gives it. -/
def someAddr : String := "192.168.1.7:6667"

/-- The text of a read error. -/
def someReadError : String := "i/o timeout"

/-- A listener whose buffer holds the bytes of an earlier, longer packet: Scenario A, 38
bytes, has been received. -/
def usedListener : Listener := step freshListener (.packet (encode scenarioA) someAddr)

/-- Three reads in a row: a failed read, a 10-byte packet, and Scenario B. -/
def threeReads : List ReadEvent :=
  [.failed someReadError [], .packet (List.replicate 10 0) someAddr,
   .packet (encode scenarioB) someAddr]

/-! ## The text of the report -/

/-- What the process-wide variable `time.Local` holds, for a zone with a fixed offset: the
seconds east of UTC and the zone's abbreviation. -/
structure Location where
  offset : Int
  abbreviation : String
  deriving DecidableEq, Repr

/-- The text of a printed line, as far as the values in it determine it.  The text of the
`Last Seen` line is identified by the wall-clock time it shows, in microseconds, and the zone
abbreviation after it. -/
inductive Printed where
  | email (s : List Byte)
  | lastSeen (wallMicros : Int) (zone : String)
  | ipAddress (s : List Byte)
  | port (n : Nat)
  deriving DecidableEq, Repr

/-- The text a line has on standard output in a process whose `time.Local` is `loc`.
`time.Unix` returns a time in the local zone, and
`lastSeenTime.Format("2006-01-02 15:04:05.000000 MST")` prints the wall-clock time of the
instant in that zone, cut to microseconds, followed by the zone's abbreviation; the other
lines print their value. -/
def Line.printed (loc : Location) : Line → Printed
  | .email s => .email s
  | .lastSeen t => .lastSeen ((t + loc.offset * 1000000000) / 1000) loc.abbreviation
  | .ipAddress s => .ipAddress s
  | .port n => .port n

/-- The text on standard output after a decode, in a process whose `time.Local` is `loc`. -/
def printedBy (loc : Location) (p : Process) : List Printed :=
  (parseBinaryMessage p).1.stdout.map (Line.printed loc)

/-- The zone UTC. -/
def utc : Location := { offset := 0, abbreviation := "UTC" }

/-- The zone one hour east of UTC. -/
def cet : Location := { offset := 3600, abbreviation := "CET" }

/-! ## Reading integers and slices -/

theorem or_shiftLeft_eq (x a i : Nat) (h : x < 2 ^ i) : x ||| a <<< i = a * 2 ^ i + x := by
  rw [Nat.or_comm, Nat.shiftLeft_eq, Nat.mul_comm, ← Nat.mul_add_lt_is_or h]

theorem byteAt_lt (b : List Byte) (i : Nat) : byteAt b i < 256 := (b.getD i 0).isLt

theorem byteAt_drop (b : List Byte) (k i : Nat) : byteAt (b.drop k) i = byteAt b (k + i) := by
  simp [byteAt, List.getElem?_drop]

theorem byteAt_take (b : List Byte) (n i : Nat) (h : i < n) :
    byteAt (b.take n) i = byteAt b i := by
  simp [byteAt, List.getElem?_take_of_lt h]

theorem byteAt_append_left (b t : List Byte) (i : Nat) (h : i < b.length) :
    byteAt (b ++ t) i = byteAt b i := by
  simp [byteAt, List.getElem?_append_left h]

theorem u32At_lt (b : List Byte) (off : Nat) : u32At b off < 2 ^ 32 := by
  have h0 := byteAt_lt b off
  have h1 := byteAt_lt b (off + 1)
  have h2 := byteAt_lt b (off + 2)
  have h3 := byteAt_lt b (off + 3)
  unfold u32At
  omega

theorem u64At_lt (b : List Byte) (off : Nat) : u64At b off < 2 ^ 64 := by
  have h0 := byteAt_lt b off
  have h1 := byteAt_lt b (off + 1)
  have h2 := byteAt_lt b (off + 2)
  have h3 := byteAt_lt b (off + 3)
  have h4 := byteAt_lt b (off + 4)
  have h5 := byteAt_lt b (off + 5)
  have h6 := byteAt_lt b (off + 6)
  have h7 := byteAt_lt b (off + 7)
  unfold u64At
  omega

theorem u32At_drop (b : List Byte) (k off : Nat) : u32At (b.drop k) off = u32At b (k + off) := by
  simp [u32At, byteAt_drop, Nat.add_assoc]

theorem u64At_drop (b : List Byte) (k off : Nat) : u64At (b.drop k) off = u64At b (k + off) := by
  simp [u64At, byteAt_drop, Nat.add_assoc]

theorem u32At_take (b : List Byte) (n off : Nat) (h : off + 4 ≤ n) :
    u32At (b.take n) off = u32At b off := by
  simp [u32At, byteAt_take b n off (by omega), byteAt_take b n (off + 1) (by omega),
    byteAt_take b n (off + 2) (by omega), byteAt_take b n (off + 3) (by omega)]

theorem u64At_take (b : List Byte) (n off : Nat) (h : off + 8 ≤ n) :
    u64At (b.take n) off = u64At b off := by
  simp [u64At, byteAt_take b n off (by omega), byteAt_take b n (off + 1) (by omega),
    byteAt_take b n (off + 2) (by omega), byteAt_take b n (off + 3) (by omega),
    byteAt_take b n (off + 4) (by omega), byteAt_take b n (off + 5) (by omega),
    byteAt_take b n (off + 6) (by omega), byteAt_take b n (off + 7) (by omega)]

theorem u32At_append_left (b t : List Byte) (off : Nat) (h : off + 4 ≤ b.length) :
    u32At (b ++ t) off = u32At b off := by
  simp [u32At, byteAt_append_left b t off (by omega), byteAt_append_left b t (off + 1) (by omega),
    byteAt_append_left b t (off + 2) (by omega), byteAt_append_left b t (off + 3) (by omega)]

theorem u64At_append_left (b t : List Byte) (off : Nat) (h : off + 8 ≤ b.length) :
    u64At (b ++ t) off = u64At b off := by
  simp [u64At, byteAt_append_left b t off (by omega), byteAt_append_left b t (off + 1) (by omega),
    byteAt_append_left b t (off + 2) (by omega), byteAt_append_left b t (off + 3) (by omega),
    byteAt_append_left b t (off + 4) (by omega), byteAt_append_left b t (off + 5) (by omega),
    byteAt_append_left b t (off + 6) (by omega), byteAt_append_left b t (off + 7) (by omega)]

theorem bytesAt_append_left (b t : List Byte) (lo hi : Nat) (h : hi ≤ b.length) :
    bytesAt (b ++ t) lo hi = bytesAt b lo hi := by
  unfold bytesAt
  by_cases hlo : lo ≤ hi
  · rw [List.drop_append_of_le_length (by omega), List.take_append_of_le_length]
    simp only [List.length_drop]
    omega
  · have h0 : hi - lo = 0 := by omega
    simp [h0]

theorem length_bytesAt (b : List Byte) (lo hi : Nat) (h : hi ≤ b.length) :
    (bytesAt b lo hi).length = hi - lo := by
  simp only [bytesAt, List.length_take, List.length_drop]
  omega

/-- On at least four bytes `binary.BigEndian.Uint32` returns the big-endian value of the
first four. -/
theorem Uint32_eq (l : List Byte) (h : 4 ≤ l.length) :
    BigEndian.Uint32 l = some (u32At l 0) := by
  match l, h with
  | b0 :: b1 :: b2 :: b3 :: rest, _ =>
    have h0 := b0.isLt
    have h1 := b1.isLt
    have h2 := b2.isLt
    have h3 := b3.isLt
    simp only [BigEndian.Uint32, u32At, byteAt, List.getD_cons_zero, List.getD_cons_succ,
      Option.some.injEq]
    rw [or_shiftLeft_eq _ _ 8 (by omega), or_shiftLeft_eq _ _ 16 (by omega),
      or_shiftLeft_eq _ _ 24 (by omega)]
    omega

/-- On at least eight bytes `binary.BigEndian.Uint64` returns the big-endian value of the
first eight. -/
theorem Uint64_eq (l : List Byte) (h : 8 ≤ l.length) :
    BigEndian.Uint64 l = some (u64At l 0) := by
  match l, h with
  | b0 :: b1 :: b2 :: b3 :: b4 :: b5 :: b6 :: b7 :: rest, _ =>
    have h0 := b0.isLt
    have h1 := b1.isLt
    have h2 := b2.isLt
    have h3 := b3.isLt
    have h4 := b4.isLt
    have h5 := b5.isLt
    have h6 := b6.isLt
    have h7 := b7.isLt
    simp only [BigEndian.Uint64, u64At, byteAt, List.getD_cons_zero, List.getD_cons_succ,
      Option.some.injEq]
    rw [or_shiftLeft_eq _ _ 8 (by omega), or_shiftLeft_eq _ _ 16 (by omega),
      or_shiftLeft_eq _ _ 24 (by omega), or_shiftLeft_eq _ _ 32 (by omega),
      or_shiftLeft_eq _ _ 40 (by omega), or_shiftLeft_eq _ _ 48 (by omega),
      or_shiftLeft_eq _ _ 56 (by omega)]
    omega

theorem slice_eq (data : List Byte) (lo hi : Nat) (h1 : lo ≤ hi) (h2 : hi ≤ data.length) :
    slice data lo hi = some (bytesAt data lo hi) := by
  simp [slice, bytesAt, h1, h2]

/-- Reading a `uint32` from `data[off:off+4]` when the four bytes are there. -/
theorem slice_Uint32 (data : List Byte) (off : Nat) (h : off + 4 ≤ data.length) :
    (slice data off (off + 4)).bind BigEndian.Uint32 = some (u32At data off) := by
  rw [slice_eq data off (off + 4) (by omega) h, Option.some_bind,
    Uint32_eq _ (by rw [length_bytesAt _ _ _ h]; omega)]
  simp only [bytesAt, Nat.add_sub_cancel_left]
  rw [u32At_take _ _ _ (by omega), u32At_drop]
  rfl

/-- Reading a `uint64` from `data[off:off+8]` when the eight bytes are there. -/
theorem slice_Uint64 (data : List Byte) (off : Nat) (h : off + 8 ≤ data.length) :
    (slice data off (off + 8)).bind BigEndian.Uint64 = some (u64At data off) := by
  rw [slice_eq data off (off + 8) (by omega) h, Option.some_bind,
    Uint64_eq _ (by rw [length_bytesAt _ _ _ h]; omega)]
  simp only [bytesAt, Nat.add_sub_cancel_left]
  rw [u64At_take _ _ _ (by omega), u64At_drop]
  rfl

theorem int64_eq_s64At (b : List Byte) (off : Nat) :
    int64 (u64At b off : Int) = s64At b off := by
  have h := u64At_lt b off
  unfold int64 s64At
  split <;> omega

/-- The decoder in closed form: the first check that fails decides the error, and
when none fails the record laid out in the buffer is reported.  No slice expression
is out of range. -/
theorem parseBinaryMessage_eq (p : Process) :
    parseBinaryMessage p =
      if p.data.length < 16 then (p, .err .packetTooShort)
      else if p.data.length < 4 + emailLenOf p.data then (p, .err .email)
      else if p.data.length < 12 + emailLenOf p.data then (p, .err .lastSeen)
      else if p.data.length < 16 + emailLenOf p.data then (p, .err .ipLength)
      else if p.data.length < 16 + emailLenOf p.data + ipLenOf p.data then (p, .err .ip)
      else if p.data.length < 20 + emailLenOf p.data + ipLenOf p.data then (p, .err .port)
      else (p.reported (fieldsOf p.data), .nil) := by
  by_cases h16 : p.data.length < 16
  · simp [parseBinaryMessage, h16]
  have hE := slice_Uint32 p.data 0 (by omega)
  simp only [Nat.zero_add] at hE
  simp only [parseBinaryMessage, h16, if_false, Nat.zero_add, hE]
  have h4 : ¬ 4 > p.data.length := by omega
  simp only [h4, if_false, emailLenOf, ipLenOf]
  by_cases c1 : p.data.length < 4 + u32At p.data 0
  · have c1b : 4 + u32At p.data 0 > p.data.length := by omega
    simp [c1, c1b]
  have c1b : ¬ 4 + u32At p.data 0 > p.data.length := by omega
  rw [if_neg c1b, if_neg c1, slice_eq p.data 4 (4 + u32At p.data 0) (by omega) (by omega)]
  simp only []
  by_cases c2 : p.data.length < 12 + u32At p.data 0
  · have c2b : 4 + u32At p.data 0 + 8 > p.data.length := by omega
    simp [c2, c2b]
  have c2b : ¬ 4 + u32At p.data 0 + 8 > p.data.length := by omega
  rw [if_neg c2b, if_neg c2, slice_Uint64 p.data (4 + u32At p.data 0) (by omega)]
  simp only []
  by_cases c3 : p.data.length < 16 + u32At p.data 0
  · have c3b : 4 + u32At p.data 0 + 8 + 4 > p.data.length := by omega
    simp [c3, c3b]
  have c3b : ¬ 4 + u32At p.data 0 + 8 + 4 > p.data.length := by omega
  have e12 : 4 + u32At p.data 0 + 8 = 12 + u32At p.data 0 := by omega
  rw [if_neg c3b, if_neg c3, slice_Uint32 p.data (4 + u32At p.data 0 + 8) (by omega), e12]
  simp only []
  by_cases c4 : p.data.length < 16 + u32At p.data 0 + u32At p.data (12 + u32At p.data 0)
  · have c4b : 12 + u32At p.data 0 + 4 + u32At p.data (12 + u32At p.data 0) > p.data.length := by omega
    simp [c4, c4b]
  have c4b : ¬ 12 + u32At p.data 0 + 4 + u32At p.data (12 + u32At p.data 0) > p.data.length := by omega
  have e16 : 12 + u32At p.data 0 + 4 = 16 + u32At p.data 0 := by omega
  rw [if_neg c4b, if_neg c4, slice_eq p.data (12 + u32At p.data 0 + 4) (12 + u32At p.data 0 + 4 + u32At p.data (12 + u32At p.data 0)) (by omega) (by omega),
    e16]
  simp only []
  by_cases c5 : p.data.length < 20 + u32At p.data 0 + u32At p.data (12 + u32At p.data 0)
  · have c5b : 16 + u32At p.data 0 + u32At p.data (12 + u32At p.data 0) + 4 > p.data.length := by omega
    simp [c5, c5b]
  have c5b : ¬ 16 + u32At p.data 0 + u32At p.data (12 + u32At p.data 0) + 4 > p.data.length := by omega
  rw [if_neg c5b, if_neg c5, slice_Uint32 p.data (16 + u32At p.data 0 + u32At p.data (12 + u32At p.data 0)) (by omega)]
  simp only [Process.reported, Record.report, fieldsOf, emailLenOf, ipLenOf, timeUnix, Int.zero_mul, Int.zero_add, int64_eq_s64At]

/-! ## The wire encoding -/

theorem s64At_drop (b : List Byte) (k off : Nat) : s64At (b.drop k) off = s64At b (k + off) := by
  simp [s64At, u64At_drop]

theorem length_be32 (n : Nat) : (be32 n).length = 4 := rfl

theorem length_be64 (t : Int) : (be64 t).length = 8 := rfl

theorem u32At_be32 (n : Nat) (rest : List Byte) (h : n < 2 ^ 32) :
    u32At (be32 n ++ rest) 0 = n := by
  simp [u32At, byteAt, be32, natByte]
  omega

theorem s64At_be64 (t : Int) (rest : List Byte) (h1 : -2 ^ 63 ≤ t) (h2 : t < 2 ^ 63) :
    s64At (be64 t ++ rest) 0 = t := by
  have hu : u64At (be64 t ++ rest) 0 = (t % 2 ^ 64).toNat := by
    have hlt : (t % 2 ^ 64).toNat < 2 ^ 64 := by omega
    simp [u64At, byteAt, be64, natByte]
    omega
  unfold s64At
  rw [hu]
  split <;> omega

theorem encode_length (r : Record) :
    (encode r).length = 20 + r.email.length + r.ip.length := by
  simp [encode, length_be32, length_be64]
  omega

theorem encode_drop4 (r : Record) :
    (encode r).drop 4 =
      r.email ++ (be64 r.lastSeen ++ (be32 r.ip.length ++ (r.ip ++ be32 r.port))) := by
  have h : encode r = be32 r.email.length ++
      (r.email ++ (be64 r.lastSeen ++ (be32 r.ip.length ++ (r.ip ++ be32 r.port)))) := by
    simp [encode]
  rw [h]
  exact List.drop_left' (length_be32 _)

theorem encode_drop_email (r : Record) :
    (encode r).drop (4 + r.email.length) =
      be64 r.lastSeen ++ (be32 r.ip.length ++ (r.ip ++ be32 r.port)) := by
  rw [← List.drop_drop, encode_drop4]
  exact List.drop_left' rfl

theorem encode_drop_lastSeen (r : Record) :
    (encode r).drop (12 + r.email.length) = be32 r.ip.length ++ (r.ip ++ be32 r.port) := by
  have h : 12 + r.email.length = 4 + r.email.length + 8 := by omega
  rw [h, ← List.drop_drop, encode_drop_email]
  exact List.drop_left' (length_be64 _)

theorem encode_drop_ipLen (r : Record) :
    (encode r).drop (16 + r.email.length) = r.ip ++ be32 r.port := by
  have h : 16 + r.email.length = 12 + r.email.length + 4 := by omega
  rw [h, ← List.drop_drop, encode_drop_lastSeen]
  exact List.drop_left' (length_be32 _)

theorem encode_drop_ip (r : Record) :
    (encode r).drop (16 + r.email.length + r.ip.length) = be32 r.port := by
  rw [← List.drop_drop, encode_drop_ipLen]
  exact List.drop_left' rfl

theorem emailLenOf_encode (r : Record) (h : r.Valid) : emailLenOf (encode r) = r.email.length := by
  have h0 : encode r = be32 r.email.length ++
      (r.email ++ (be64 r.lastSeen ++ (be32 r.ip.length ++ (r.ip ++ be32 r.port)))) := by
    simp [encode]
  rw [emailLenOf, h0]
  exact u32At_be32 _ _ h.1

theorem ipLenOf_encode (r : Record) (h : r.Valid) : ipLenOf (encode r) = r.ip.length := by
  rw [ipLenOf, emailLenOf_encode r h]
  have h0 := u32At_drop (encode r) (12 + r.email.length) 0
  rw [Nat.add_zero] at h0
  rw [← h0, encode_drop_lastSeen]
  exact u32At_be32 _ _ h.2.1

/-- The record laid out in the encoding of a valid record is that record. -/
theorem fieldsOf_encode (r : Record) (h : r.Valid) : fieldsOf (encode r) = r := by
  have hE := emailLenOf_encode r h
  have hI := ipLenOf_encode r h
  have hemail : bytesAt (encode r) 4 (4 + r.email.length) = r.email := by
    rw [bytesAt, encode_drop4, Nat.add_sub_cancel_left]
    exact List.take_left' rfl
  have hts : s64At (encode r) (4 + r.email.length) = r.lastSeen := by
    have h0 := s64At_drop (encode r) (4 + r.email.length) 0
    rw [Nat.add_zero] at h0
    rw [← h0, encode_drop_email]
    exact s64At_be64 _ _ h.2.2.1 h.2.2.2.1
  have hip : bytesAt (encode r) (16 + r.email.length)
      (16 + r.email.length + r.ip.length) = r.ip := by
    rw [bytesAt, encode_drop_ipLen, Nat.add_sub_cancel_left]
    exact List.take_left' rfl
  have hport : u32At (encode r) (16 + r.email.length + r.ip.length) = r.port := by
    have h0 := u32At_drop (encode r) (16 + r.email.length + r.ip.length) 0
    rw [Nat.add_zero] at h0
    rw [← h0, encode_drop_ip]
    have h1 := u32At_be32 r.port [] h.2.2.2.2
    rwa [List.append_nil] at h1
  simp only [fieldsOf, hE, hI, hemail, hts, hip, hport]

/-! ## Consequences of the closed form -/

/-- When the whole frame fits, the decode succeeds with the record laid out in the
buffer. -/
theorem parseBinaryMessage_of_fits (p : Process)
    (h : 20 + emailLenOf p.data + ipLenOf p.data ≤ p.data.length) :
    parseBinaryMessage p = (p.reported (fieldsOf p.data), .nil) := by
  rw [parseBinaryMessage_eq]
  have h1 : ¬ p.data.length < 16 := by omega
  have h2 : ¬ p.data.length < 4 + emailLenOf p.data := by omega
  have h3 : ¬ p.data.length < 12 + emailLenOf p.data := by omega
  have h4 : ¬ p.data.length < 16 + emailLenOf p.data := by omega
  have h5 : ¬ p.data.length < 16 + emailLenOf p.data + ipLenOf p.data := by omega
  have h6 : ¬ p.data.length < 20 + emailLenOf p.data + ipLenOf p.data := by omega
  simp only [h1, h2, h3, h4, h5, h6, if_false]

/-- A decode returns `nil` only when the whole frame fits. -/
theorem fits_of_nil (p : Process) (h : (parseBinaryMessage p).2 = .nil) :
    20 + emailLenOf p.data + ipLenOf p.data ≤ p.data.length := by
  rw [parseBinaryMessage_eq] at h
  by_contra hc
  split_ifs at h
  omega

/-- Every decode ends in `nil` or in an error, and an error leaves the state as it
was. -/
theorem parseBinaryMessage_cases (p : Process) :
    parseBinaryMessage p = (p.reported (fieldsOf p.data), .nil) ∨
      ∃ e, parseBinaryMessage p = (p, .err e) := by
  rw [parseBinaryMessage_eq]
  split_ifs
  · exact Or.inr ⟨_, rfl⟩
  · exact Or.inr ⟨_, rfl⟩
  · exact Or.inr ⟨_, rfl⟩
  · exact Or.inr ⟨_, rfl⟩
  · exact Or.inr ⟨_, rfl⟩
  · exact Or.inr ⟨_, rfl⟩
  · exact Or.inl rfl

theorem s64At_append_left (b t : List Byte) (off : Nat) (h : off + 8 ≤ b.length) :
    s64At (b ++ t) off = s64At b off := by
  simp [s64At, u64At_append_left b t off h]

/-- Bytes appended after a frame that fits change neither the declared lengths nor
the record laid out in the buffer. -/
theorem fieldsOf_append (b t : List Byte)
    (h : 20 + emailLenOf b + ipLenOf b ≤ b.length) :
    emailLenOf (b ++ t) = emailLenOf b ∧ ipLenOf (b ++ t) = ipLenOf b ∧
      fieldsOf (b ++ t) = fieldsOf b := by
  have hE : emailLenOf (b ++ t) = emailLenOf b := u32At_append_left b t 0 (by omega)
  have hI : ipLenOf (b ++ t) = ipLenOf b := by
    unfold ipLenOf
    rw [hE]
    exact u32At_append_left b t _ (by omega)
  refine ⟨hE, hI, ?_⟩
  unfold fieldsOf
  rw [hE, hI, bytesAt_append_left b t _ _ (by omega), bytesAt_append_left b t _ _ (by omega),
    s64At_append_left b t _ (by omega), u32At_append_left b t _ (by omega)]

theorem s64At_bounds (b : List Byte) (off : Nat) :
    -2 ^ 63 ≤ s64At b off ∧ s64At b off < 2 ^ 63 := by
  have h := u64At_lt b off
  unfold s64At
  split <;> omega

theorem Record.report_injective (r1 r2 : Record) (h : r1.report = r2.report) : r1 = r2 := by
  cases r1
  cases r2
  simp only [Record.report, List.cons.injEq, Line.email.injEq, Line.lastSeen.injEq,
    Line.ipAddress.injEq, Line.port.injEq, and_true] at h
  obtain ⟨h1, h2, h3, h4⟩ := h
  subst h1 h2 h3 h4
  rfl

/-- The frame property of the decoder: from any process state, a decode returns what it
returns from the state with the same buffer and an empty standard output, appends to
standard output the lines it prints there, and leaves the buffer as it was. -/
theorem parseBinaryMessage_frame (q : Process) :
    parseBinaryMessage q =
      (⟨q.data, q.stdout ++ (parseBinaryMessage ⟨q.data, []⟩).1.stdout⟩,
        (parseBinaryMessage ⟨q.data, []⟩).2) := by
  rw [parseBinaryMessage_eq, parseBinaryMessage_eq]
  simp only []
  split_ifs <;> simp [Process.reported]

/-! ## The claims -/

/-- C1. Round trip: for every valid tuple (email and ip shorter than 2^32 bytes, lastSeen a
signed 64-bit nanosecond value, port below 2^32), decoding the buffer
`BE32(len email) ++ email ++ BE64(lastSeen) ++ BE32(len ip) ++ ip ++ BE32(port)`
returns `nil` and reports exactly that email, that nanosecond value, that ip and that
port. -/
theorem parseBinaryMessage_encode (r : Record) (h : r.Valid) (out : List Line) :
    parseBinaryMessage ⟨encode r, out⟩ =
      (⟨encode r, out ++ [.email r.email, .lastSeen r.lastSeen, .ipAddress r.ip, .port r.port]⟩,
        .nil) := by
  rw [parseBinaryMessage_eq]
  simp only [emailLenOf_encode r h, ipLenOf_encode r h, fieldsOf_encode r h, encode_length]
  have h1 : ¬ 20 + r.email.length + r.ip.length < 16 := by omega
  have h2 : ¬ 20 + r.email.length + r.ip.length < 4 + r.email.length := by omega
  have h3 : ¬ 20 + r.email.length + r.ip.length < 12 + r.email.length := by omega
  have h4 : ¬ 20 + r.email.length + r.ip.length < 16 + r.email.length := by omega
  have h5 : ¬ 20 + r.email.length + r.ip.length < 16 + r.email.length + r.ip.length := by omega
  have h6 : ¬ 20 + r.email.length + r.ip.length < 20 + r.email.length + r.ip.length := by omega
  simp only [h1, h2, h3, h4, h5, h6, if_false]
  rfl

/-- Scenario A (38 bytes) and Scenario B (20 bytes) decode to their own values. -/
theorem parseBinaryMessage_encode_scenarios :
    (scenarioA.Valid ∧ (encode scenarioA).length = 38 ∧
      parseBinaryMessage ⟨encode scenarioA, []⟩ =
        (⟨encode scenarioA,
          [.email [97, 64, 98, 46, 99, 111, 109], .lastSeen 1700000000000000000,
           .ipAddress [49, 57, 50, 46, 49, 54, 56, 46, 49, 46, 49], .port 8080]⟩, .nil)) ∧
    (scenarioB.Valid ∧ (encode scenarioB).length = 20 ∧
      parseBinaryMessage ⟨encode scenarioB, []⟩ =
        (⟨encode scenarioB, [.email [], .lastSeen 0, .ipAddress [], .port 0]⟩, .nil)) :=
  ⟨⟨by decide, by decide, parseBinaryMessage_encode scenarioA (by decide) []⟩,
   ⟨by decide, by decide, parseBinaryMessage_encode scenarioB (by decide) []⟩⟩

/-- C2. Truncation: for every valid tuple and every `k` strictly smaller than the length of
its encoded buffer, decoding the first `k` bytes of the encoding returns an error (one of
the seven `fmt.Errorf` errors) and prints nothing: it never succeeds with a record. -/
theorem parseBinaryMessage_take_encode (r : Record) (h : r.Valid) (k : Nat)
    (hk : k < (encode r).length) (out : List Line) :
    ∃ e, parseBinaryMessage ⟨(encode r).take k, out⟩ = (⟨(encode r).take k, out⟩, .err e) := by
  rcases parseBinaryMessage_cases ⟨(encode r).take k, out⟩ with hok | herr
  · exfalso
    have hfit := fits_of_nil _ (by rw [hok])
    have hlen : ((encode r).take k).length = k := by
      rw [List.length_take]
      omega
    simp only [hlen] at hfit
    have hE : emailLenOf ((encode r).take k) = r.email.length := by
      rw [← emailLenOf_encode r h]
      exact u32At_take _ _ _ (by omega)
    rw [hE] at hfit
    have hI : ipLenOf ((encode r).take k) = r.ip.length := by
      rw [← ipLenOf_encode r h]
      unfold ipLenOf
      rw [hE, emailLenOf_encode r h]
      exact u32At_take _ _ _ (by omega)
    rw [hI] at hfit
    rw [encode_length] at hk
    omega
  · exact herr

/-- Every strict truncation of Scenario A fails, for instance at 37 of its 38 bytes. -/
theorem parseBinaryMessage_take_encode_scenarioA :
    scenarioA.Valid ∧ 37 < (encode scenarioA).length ∧
      ∃ e, parseBinaryMessage ⟨(encode scenarioA).take 37, []⟩ =
        (⟨(encode scenarioA).take 37, []⟩, .err e) :=
  ⟨by decide, by decide, parseBinaryMessage_take_encode scenarioA (by decide) 37 (by decide) []⟩

/-- C3. Success postcondition: whenever decoding a buffer `b` returns `nil`, with `E` the
big-endian uint32 at bytes 0..3 and `I` the big-endian uint32 at bytes 12+E..15+E, the
buffer has at least `20 + E + I` bytes and the record reported is exactly
email = `b[4 .. 4+E)` (`E` bytes), lastSeen = the signed reading of `b[4+E .. 12+E)`,
ip = `b[16+E .. 16+E+I)` (`I` bytes) and port = the big-endian uint32 of
`b[16+E+I .. 20+E+I)`: every field lies inside the buffer, in wire order, with no gaps or
overlaps. -/
theorem parseBinaryMessage_nil_fields (p : Process) (E I : Nat)
    (hE : E = u32At p.data 0) (hI : I = u32At p.data (12 + E))
    (h : (parseBinaryMessage p).2 = .nil) :
    20 + E + I ≤ p.data.length ∧
      (bytesAt p.data 4 (4 + E)).length = E ∧
      (bytesAt p.data (16 + E) (16 + E + I)).length = I ∧
      (parseBinaryMessage p).1 =
        ⟨p.data, p.stdout ++
          [.email (bytesAt p.data 4 (4 + E)), .lastSeen (s64At p.data (4 + E)),
           .ipAddress (bytesAt p.data (16 + E) (16 + E + I)),
           .port (u32At p.data (16 + E + I))]⟩ := by
  have hfit := fits_of_nil p h
  have hok := parseBinaryMessage_of_fits p hfit
  simp only [emailLenOf, ipLenOf] at hfit
  subst hE
  subst hI
  refine ⟨hfit, ?_, ?_, ?_⟩
  · rw [length_bytesAt _ _ _ (by omega)]
    omega
  · rw [length_bytesAt _ _ _ (by omega)]
    omega
  · rw [hok]
    rfl

/-- The postcondition at Scenario A: `E = 7`, `I = 11`, 38 bytes. -/
theorem parseBinaryMessage_nil_fields_scenarioA :
    (7 = u32At (encode scenarioA) 0 ∧ 11 = u32At (encode scenarioA) (12 + 7) ∧
      (parseBinaryMessage ⟨encode scenarioA, []⟩).2 = .nil) ∧
    (20 + 7 + 11 ≤ (encode scenarioA).length ∧
      (bytesAt (encode scenarioA) 4 (4 + 7)).length = 7 ∧
      (bytesAt (encode scenarioA) (16 + 7) (16 + 7 + 11)).length = 11 ∧
      (parseBinaryMessage ⟨encode scenarioA, []⟩).1 =
        ⟨encode scenarioA, [] ++
          [.email (bytesAt (encode scenarioA) 4 (4 + 7)),
           .lastSeen (s64At (encode scenarioA) (4 + 7)),
           .ipAddress (bytesAt (encode scenarioA) (16 + 7) (16 + 7 + 11)),
           .port (u32At (encode scenarioA) (16 + 7 + 11))]⟩) :=
  ⟨⟨by decide, by decide, by decide⟩,
   parseBinaryMessage_nil_fields ⟨encode scenarioA, []⟩ 7 11 (by decide) (by decide) (by decide)⟩

/-- C4. Coarse floor: decoding returns the `packet too short` error if and only if the
buffer has fewer than 16 bytes, whatever its content; such a buffer (in particular every
15-byte and every 10-byte buffer) gets that error and no field-level one, and nothing is
printed. -/
theorem parseBinaryMessage_packetTooShort_iff (p : Process) :
    ((parseBinaryMessage p).2 = .err .packetTooShort ↔ p.data.length < 16) ∧
      (parseBinaryMessage p = (p, .err .packetTooShort) ↔ p.data.length < 16) ∧
      ParseError.packetTooShort.message = "packet too short" := by
  have key : (parseBinaryMessage p).2 = .err .packetTooShort → p.data.length < 16 := by
    intro h
    rw [parseBinaryMessage_eq] at h
    by_contra hc
    rw [if_neg hc] at h
    split_ifs at h <;> simp [Process.reported] at h
  have back : p.data.length < 16 → parseBinaryMessage p = (p, .err .packetTooShort) := by
    intro h
    rw [parseBinaryMessage_eq, if_pos h]
  refine ⟨⟨key, fun h => by rw [back h]⟩, ⟨fun h => key (by rw [h]), back⟩, rfl⟩

/-- Scenario C of the specification: a 10-byte buffer, and likewise a 15-byte one, gets
`packet too short`. -/
theorem parseBinaryMessage_packetTooShort_scenarioC :
    parseBinaryMessage ⟨List.replicate 10 0, []⟩ =
        (⟨List.replicate 10 0, []⟩, .err .packetTooShort) ∧
      parseBinaryMessage ⟨List.replicate 15 255, []⟩ =
        (⟨List.replicate 15 255, []⟩, .err .packetTooShort) :=
  ⟨(parseBinaryMessage_packetTooShort_iff ⟨List.replicate 10 0, []⟩).2.1.mpr (by decide),
   (parseBinaryMessage_packetTooShort_iff ⟨List.replicate 15 255, []⟩).2.1.mpr (by decide)⟩

/-- C5. True minimum frame: no buffer shorter than 20 bytes decodes successfully, and every
buffer of 16 to 19 bytes, whatever its content, passes the coarse check and fails with a
field-level `insufficient data` error (never `packet too short`), printing nothing. -/
theorem parseBinaryMessage_short_frame (p : Process) (h : p.data.length < 20) :
    (parseBinaryMessage p).2 ≠ .nil ∧
      (16 ≤ p.data.length →
        ∃ e, e.isTruncated = true ∧ e ≠ .packetTooShort ∧
          parseBinaryMessage p = (p, .err e)) := by
  constructor
  · intro hnil
    have := fits_of_nil p hnil
    omega
  · intro h16
    rw [parseBinaryMessage_eq]
    have h0 : ¬ p.data.length < 16 := by omega
    rw [if_neg h0]
    split_ifs
    · exact ⟨.email, rfl, by decide, rfl⟩
    · exact ⟨.lastSeen, rfl, by decide, rfl⟩
    · exact ⟨.ipLength, rfl, by decide, rfl⟩
    · exact ⟨.ip, rfl, by decide, rfl⟩
    · exact ⟨.port, rfl, by decide, rfl⟩
    · omega

/-- A 16-byte buffer of zeros passes the coarse check and fails at the port. -/
theorem parseBinaryMessage_short_frame_zeros :
    (List.replicate 16 (0 : Byte)).length < 20 ∧
      ((parseBinaryMessage ⟨List.replicate 16 0, []⟩).2 ≠ .nil ∧
        (16 ≤ (List.replicate 16 (0 : Byte)).length →
          ∃ e, e.isTruncated = true ∧ e ≠ .packetTooShort ∧
            parseBinaryMessage ⟨List.replicate 16 0, []⟩ = (⟨List.replicate 16 0, []⟩, .err e))) ∧
      parseBinaryMessage ⟨List.replicate 16 0, []⟩ = (⟨List.replicate 16 0, []⟩, .err .port) :=
  ⟨by decide, parseBinaryMessage_short_frame ⟨List.replicate 16 0, []⟩ (by decide), by decide⟩

/-- C6. Oversized email length: for every buffer of at least 16 bytes whose first four
bytes, read as a big-endian unsigned 32-bit integer, declare more than `len - 4` bytes of
email, decoding returns the `insufficient data for email` error and prints nothing. -/
theorem parseBinaryMessage_email_too_long (p : Process) (h16 : 16 ≤ p.data.length)
    (hE : u32At p.data 0 > p.data.length - 4) :
    parseBinaryMessage p = (p, .err .email) ∧
      ParseError.email.message = "insufficient data for email" := by
  refine ⟨?_, rfl⟩
  rw [parseBinaryMessage_eq]
  have h0 : ¬ p.data.length < 16 := by omega
  have h1 : p.data.length < 4 + emailLenOf p.data := by
    unfold emailLenOf
    omega
  rw [if_neg h0, if_pos h1]

/-- Scenario D of the specification: a 30-byte buffer whose first four bytes declare an
email of 1000 bytes. -/
theorem parseBinaryMessage_email_too_long_scenarioD :
    (16 ≤ (be32 1000 ++ List.replicate 26 (0 : Byte)).length ∧
      (be32 1000 ++ List.replicate 26 (0 : Byte)).length = 30 ∧
      u32At (be32 1000 ++ List.replicate 26 0) 0 = 1000 ∧
      u32At (be32 1000 ++ List.replicate 26 0) 0 >
        (be32 1000 ++ List.replicate 26 (0 : Byte)).length - 4) ∧
    (parseBinaryMessage ⟨be32 1000 ++ List.replicate 26 0, []⟩ =
        (⟨be32 1000 ++ List.replicate 26 0, []⟩, .err .email) ∧
      ParseError.email.message = "insufficient data for email") :=
  ⟨⟨by decide, by decide, by decide, by decide⟩,
   parseBinaryMessage_email_too_long ⟨be32 1000 ++ List.replicate 26 0, []⟩ (by decide)
     (by decide)⟩

/-- C7. First-failing-field errors: for every buffer of at least 16 bytes whose declared
email fits (`E ≤ len - 4`), decoding returns `insufficient data for lastSeen` if fewer than
8 bytes remain after the email; otherwise `insufficient data for IP length` if fewer than 4
bytes remain after lastSeen; otherwise `insufficient data for IP` if the declared ip length
`I` exceeds the bytes remaining after the ipLength field; otherwise
`insufficient data for port` if fewer than 4 bytes remain after the ip; and otherwise it
returns `nil` and reports the record.  An error prints nothing. -/
theorem parseBinaryMessage_first_failing_field (p : Process) (E I : Nat)
    (hE : E = u32At p.data 0) (hI : I = u32At p.data (12 + E))
    (h16 : 16 ≤ p.data.length) (hfit : E ≤ p.data.length - 4) :
    parseBinaryMessage p =
      if p.data.length - (4 + E) < 8 then (p, .err .lastSeen)
      else if p.data.length - (4 + E + 8) < 4 then (p, .err .ipLength)
      else if I > p.data.length - (4 + E + 8 + 4) then (p, .err .ip)
      else if p.data.length - (4 + E + 8 + 4 + I) < 4 then (p, .err .port)
      else (⟨p.data, p.stdout ++
          [.email (bytesAt p.data 4 (4 + E)), .lastSeen (s64At p.data (4 + E)),
           .ipAddress (bytesAt p.data (16 + E) (16 + E + I)),
           .port (u32At p.data (16 + E + I))]⟩, .nil) := by
  subst hE
  subst hI
  rw [parseBinaryMessage_eq]
  simp only [emailLenOf, ipLenOf]
  have h0 : ¬ p.data.length < 16 := by omega
  have h1 : ¬ p.data.length < 4 + u32At p.data 0 := by omega
  rw [if_neg h0, if_neg h1]
  split_ifs <;> first | rfl | omega

/-- A 19-byte buffer of zeros declares an empty email and an empty ip: lastSeen and the ip
length fit, the port does not. -/
theorem parseBinaryMessage_first_failing_field_zeros :
    (0 = u32At (List.replicate 19 (0 : Byte)) 0 ∧
      0 = u32At (List.replicate 19 (0 : Byte)) (12 + 0) ∧
      16 ≤ (List.replicate 19 (0 : Byte)).length ∧
      0 ≤ (List.replicate 19 (0 : Byte)).length - 4) ∧
    parseBinaryMessage ⟨List.replicate 19 0, []⟩ = (⟨List.replicate 19 0, []⟩, .err .port) := by
  refine ⟨⟨by decide, by decide, by decide, by decide⟩, ?_⟩
  have h := parseBinaryMessage_first_failing_field ⟨List.replicate 19 0, []⟩ 0 0
    (by decide) (by decide) (by decide) (by decide)
  rw [h]
  decide

/-- C8. Trailing bytes are ignored: for every buffer `b` that decodes successfully to a
record `r` and every byte string `t`, decoding `b ++ t` also succeeds and reports the same
record `r`. -/
theorem parseBinaryMessage_append (b t : List Byte) (r : Record) (out : List Line)
    (h : parseBinaryMessage ⟨b, out⟩ = (⟨b, out ++ r.report⟩, .nil)) (out2 : List Line) :
    parseBinaryMessage ⟨b ++ t, out2⟩ = (⟨b ++ t, out2 ++ r.report⟩, .nil) := by
  have hfit := fits_of_nil ⟨b, out⟩ (by rw [h])
  have hok := parseBinaryMessage_of_fits ⟨b, out⟩ hfit
  rw [h] at hok
  simp only [Process.reported, Prod.mk.injEq, Process.mk.injEq, true_and, and_true,
    List.append_cancel_left_eq] at hok
  have hr : r = fieldsOf b := Record.report_injective _ _ hok
  obtain ⟨hE, hI, hF⟩ := fieldsOf_append b t hfit
  have hfit2 : 20 + emailLenOf (b ++ t) + ipLenOf (b ++ t) ≤ (b ++ t).length := by
    rw [hE, hI, List.length_append]
    simp only [] at hfit
    omega
  rw [parseBinaryMessage_of_fits ⟨b ++ t, out2⟩ hfit2]
  simp only [Process.reported, hF, hr]

/-- Scenario B followed by three stray bytes still decodes to Scenario B. -/
theorem parseBinaryMessage_append_scenarioB :
    parseBinaryMessage ⟨encode scenarioB, []⟩ = (⟨encode scenarioB, [] ++ scenarioB.report⟩, .nil) ∧
      parseBinaryMessage ⟨encode scenarioB ++ [1, 2, 3], []⟩ =
        (⟨encode scenarioB ++ [1, 2, 3], [] ++ scenarioB.report⟩, .nil) :=
  ⟨by decide, parseBinaryMessage_append (encode scenarioB) [1, 2, 3] scenarioB [] (by decide) []⟩

/-- C9. Signed timestamp: for every buffer that decodes successfully, with `u` the unsigned
value of the eight big-endian bytes following the email, the lastSeen nanosecond offset
reported is `u` when `u < 2^63` and `u - 2^64` otherwise; it lies in `[-2^63, 2^63)` and is
negative (an instant before the Unix epoch) exactly when the top bit is set. -/
theorem parseBinaryMessage_lastSeen_signed (p : Process) (u : Nat)
    (hu : u = u64At p.data (4 + u32At p.data 0))
    (h : (parseBinaryMessage p).2 = .nil) :
    ∃ (t : Int) (email ip : List Byte) (port : Nat),
      (parseBinaryMessage p).1.stdout =
          p.stdout ++ [.email email, .lastSeen t, .ipAddress ip, .port port] ∧
        t = (if u < 2 ^ 63 then (u : Int) else (u : Int) - 2 ^ 64) ∧
        -2 ^ 63 ≤ t ∧ t < 2 ^ 63 ∧ (t < 0 ↔ 2 ^ 63 ≤ u) := by
  have hfit := fits_of_nil p h
  have hok := parseBinaryMessage_of_fits p hfit
  have hlt := u64At_lt p.data (4 + u32At p.data 0)
  refine ⟨s64At p.data (4 + u32At p.data 0), (fieldsOf p.data).email, (fieldsOf p.data).ip,
    (fieldsOf p.data).port, ?_, ?_, ?_, ?_, ?_⟩
  · rw [hok]
    rfl
  · rw [hu]
    rfl
  · exact (s64At_bounds _ _).1
  · exact (s64At_bounds _ _).2
  · rw [hu]
    unfold s64At
    split <;> omega

/-- Eight `0xFF` bytes are the unsigned value `2^64 - 1` and decode to `-1` ns. -/
theorem parseBinaryMessage_lastSeen_signed_allOnes :
    (18446744073709551615 = u64At allOnesFrame (4 + u32At allOnesFrame 0) ∧
      (parseBinaryMessage ⟨allOnesFrame, []⟩).2 = .nil) ∧
    (∃ (t : Int) (email ip : List Byte) (port : Nat),
      (parseBinaryMessage ⟨allOnesFrame, []⟩).1.stdout =
          [] ++ [.email email, .lastSeen t, .ipAddress ip, .port port] ∧
        t = (if 18446744073709551615 < 2 ^ 63 then ((18446744073709551615 : Nat) : Int)
              else ((18446744073709551615 : Nat) : Int) - 2 ^ 64) ∧
        -2 ^ 63 ≤ t ∧ t < 2 ^ 63 ∧ (t < 0 ↔ 2 ^ 63 ≤ 18446744073709551615)) ∧
    (parseBinaryMessage ⟨allOnesFrame, []⟩).1.stdout =
      [.email [], .lastSeen (-1), .ipAddress [], .port 0] :=
  ⟨⟨by decide, by decide⟩,
   parseBinaryMessage_lastSeen_signed ⟨allOnesFrame, []⟩ 18446744073709551615 (by decide)
     (by decide),
   by decide⟩

/-- C10, as stated, fails on the code: decoding is not free of effects and what it prints is
not a function of its input alone.  Decoding Scenario B changes the process state (four
lines are appended to standard output), and the text printed for the same buffer differs
between a process in UTC and one an hour east of it. -/
theorem parseBinaryMessage_not_pure :
    (parseBinaryMessage ⟨encode scenarioB, []⟩).1 ≠ ⟨encode scenarioB, []⟩ ∧
      (parseBinaryMessage ⟨encode scenarioB, []⟩).1.stdout =
        [.email [], .lastSeen 0, .ipAddress [], .port 0] ∧
      printedBy utc ⟨encode scenarioB, []⟩ =
        [.email [], .lastSeen 0 utc.abbreviation, .ipAddress [], .port 0] ∧
      printedBy cet ⟨encode scenarioB, []⟩ =
        [.email [], .lastSeen 3600000000 cet.abbreviation, .ipAddress [], .port 0] ∧
      printedBy utc ⟨encode scenarioB, []⟩ ≠ printedBy cet ⟨encode scenarioB, []⟩ := by
  refine ⟨by decide, by decide, by decide, by decide, by decide⟩

/-- C10, amended.  Determinism without purity: a decode leaves the bytes of the input buffer
unchanged, and what it returns (`nil` or which error) together with the values it reports
is a function of the buffer alone: from every process state holding the same buffer it
returns the same result and appends the same lines, so decoding the buffer a second time,
in the state the first decode left, gives the identical result and the identical report.
Its one write is to standard output: on success it appends the four lines of the record
laid out in the buffer, on failure nothing.  The text of those lines is a function of the
buffer and of the process's local time zone. -/
theorem parseBinaryMessage_deterministic (p : Process) :
    (parseBinaryMessage p).1.data = p.data ∧
      ∃ lines : List Line,
        (parseBinaryMessage p).1.stdout = p.stdout ++ lines ∧
        ((parseBinaryMessage p).2 = .nil → lines = (fieldsOf p.data).report) ∧
        ((parseBinaryMessage p).2 ≠ .nil → lines = []) ∧
        (parseBinaryMessage (parseBinaryMessage p).1).2 = (parseBinaryMessage p).2 ∧
        (parseBinaryMessage (parseBinaryMessage p).1).1 = ⟨p.data, p.stdout ++ lines ++ lines⟩ ∧
        (∀ q : Process, q.data = p.data →
          (parseBinaryMessage q).2 = (parseBinaryMessage p).2 ∧
            (parseBinaryMessage q).1 = ⟨q.data, q.stdout ++ lines⟩) ∧
        ∀ (loc : Location) (q : Process), q.data = p.data →
          printedBy loc q = q.stdout.map (Line.printed loc) ++ lines.map (Line.printed loc) := by
  have hp := parseBinaryMessage_frame p
  have hq : ∀ q : Process, q.data = p.data →
      (parseBinaryMessage q).2 = (parseBinaryMessage p).2 ∧
        (parseBinaryMessage q).1 =
          ⟨q.data, q.stdout ++ (parseBinaryMessage ⟨p.data, []⟩).1.stdout⟩ := by
    intro q hd
    have hf := parseBinaryMessage_frame q
    rw [hd] at hf
    rw [hf, hp]
    simp [hd]
  have h2 : (parseBinaryMessage p).2 = (parseBinaryMessage ⟨p.data, []⟩).2 := by rw [hp]
  refine ⟨by rw [hp], (parseBinaryMessage ⟨p.data, []⟩).1.stdout, by rw [hp], ?_, ?_, ?_, ?_,
    hq, ?_⟩
  · intro hnil
    rw [h2] at hnil
    rw [parseBinaryMessage_of_fits _ (fits_of_nil _ hnil)]
    simp [Process.reported]
  · intro hne
    rw [h2] at hne
    rcases parseBinaryMessage_cases ⟨p.data, []⟩ with h | ⟨e, h⟩
    · rw [h] at hne
      exact absurd rfl hne
    · rw [h]
  · exact (hq (parseBinaryMessage p).1 (by rw [hp])).1
  · rw [(hq (parseBinaryMessage p).1 (by rw [hp])).2, hp]
  · intro loc q hd
    rw [printedBy, (hq q hd).2, List.map_append]

/-! ## Slice expressions and the consumed bytes -/

/-- The slice expressions of a decode in closed form: each is listed once the check before
it has passed. -/
theorem sliceExprs_eq (data : List Byte) :
    sliceExprs data =
      if data.length < 16 then [] else
      (0, 4) ::
      if data.length < 4 + emailLenOf data then [] else
      (4, 4 + emailLenOf data) ::
      if data.length < 12 + emailLenOf data then [] else
      (4 + emailLenOf data, 12 + emailLenOf data) ::
      if data.length < 16 + emailLenOf data then [] else
      (12 + emailLenOf data, 16 + emailLenOf data) ::
      if data.length < 16 + emailLenOf data + ipLenOf data then [] else
      (16 + emailLenOf data, 16 + emailLenOf data + ipLenOf data) ::
      if data.length < 20 + emailLenOf data + ipLenOf data then [] else
      [(16 + emailLenOf data + ipLenOf data, 20 + emailLenOf data + ipLenOf data)] := by
  by_cases h16 : data.length < 16
  · simp [sliceExprs, h16]
  have hE := slice_Uint32 data 0 (by omega)
  simp only [Nat.zero_add] at hE
  simp only [sliceExprs, h16, if_false, Nat.zero_add, hE]
  have h4 : ¬ 4 > data.length := by omega
  simp only [h4, if_false, emailLenOf, ipLenOf]
  by_cases c1 : data.length < 4 + u32At data 0
  · have c1b : 4 + u32At data 0 > data.length := by omega
    simp [c1, c1b]
  have c1b : ¬ 4 + u32At data 0 > data.length := by omega
  rw [if_neg c1b, if_neg c1, slice_eq data 4 (4 + u32At data 0) (by omega) (by omega)]
  simp only []
  by_cases c2 : data.length < 12 + u32At data 0
  · have c2b : 4 + u32At data 0 + 8 > data.length := by omega
    simp [c2, c2b]
  have c2b : ¬ 4 + u32At data 0 + 8 > data.length := by omega
  have e12 : 4 + u32At data 0 + 8 = 12 + u32At data 0 := by omega
  rw [if_neg c2b, if_neg c2, slice_Uint64 data (4 + u32At data 0) (by omega), e12]
  simp only []
  by_cases c3 : data.length < 16 + u32At data 0
  · have c3b : 12 + u32At data 0 + 4 > data.length := by omega
    simp [c3, c3b]
  have c3b : ¬ 12 + u32At data 0 + 4 > data.length := by omega
  have e16 : 12 + u32At data 0 + 4 = 16 + u32At data 0 := by omega
  rw [if_neg c3b, if_neg c3, slice_Uint32 data (12 + u32At data 0) (by omega), e16]
  simp only []
  by_cases c4 : data.length < 16 + u32At data 0 + u32At data (12 + u32At data 0)
  · have c4b : 16 + u32At data 0 + u32At data (12 + u32At data 0) > data.length := by omega
    simp [c4, c4b]
  have c4b : ¬ 16 + u32At data 0 + u32At data (12 + u32At data 0) > data.length := by omega
  rw [if_neg c4b, if_neg c4, slice_eq data (16 + u32At data 0)
    (16 + u32At data 0 + u32At data (12 + u32At data 0)) (by omega) (by omega)]
  simp only []
  by_cases c5 : data.length < 20 + u32At data 0 + u32At data (12 + u32At data 0)
  · have c5b : 16 + u32At data 0 + u32At data (12 + u32At data 0) + 4 > data.length := by omega
    simp [c5, c5b]
  have c5b : ¬ 16 + u32At data 0 + u32At data (12 + u32At data 0) + 4 > data.length := by
    omega
  have e20 : 16 + u32At data 0 + u32At data (12 + u32At data 0) + 4 =
      20 + u32At data 0 + u32At data (12 + u32At data 0) := by omega
  rw [if_neg c5b, if_neg c5, e20]

theorem bytesAt_append (b : List Byte) (lo mid hi : Nat) (h1 : lo ≤ mid) (h2 : mid ≤ hi) :
    bytesAt b lo mid ++ bytesAt b mid hi = bytesAt b lo hi := by
  unfold bytesAt
  have e1 : hi - lo = (mid - lo) + (hi - mid) := by omega
  have e2 : lo + (mid - lo) = mid := by omega
  rw [e1, List.take_add, List.drop_drop, e2]

theorem bytesAt_zero (b : List Byte) (hi : Nat) : bytesAt b 0 hi = b.take hi := by
  simp [bytesAt]

/-- Re-encoding the `uint32` read from the first four bytes gives those four bytes. -/
theorem be32_u32At_zero (l : List Byte) (h : 4 ≤ l.length) : be32 (u32At l 0) = l.take 4 := by
  match l, h with
  | b0 :: b1 :: b2 :: b3 :: rest, _ =>
    have h0 := b0.isLt
    have h1 := b1.isLt
    have h2 := b2.isLt
    have h3 := b3.isLt
    simp only [be32, natByte, u32At, byteAt, List.getD_cons_zero, List.getD_cons_succ,
      List.take_succ_cons, List.take_zero, List.cons.injEq, and_true]
    refine ⟨?_, ?_, ?_, ?_⟩ <;> apply Fin.ext <;> simp only [] <;> omega

theorem be32_u32At (b : List Byte) (off : Nat) (h : off + 4 ≤ b.length) :
    be32 (u32At b off) = bytesAt b off (off + 4) := by
  have h0 := u32At_drop b off 0
  rw [Nat.add_zero] at h0
  rw [← h0, be32_u32At_zero _ (by rw [List.length_drop]; omega), bytesAt,
    Nat.add_sub_cancel_left]

theorem toNat_s64At (b : List Byte) (off : Nat) :
    (s64At b off % 2 ^ 64).toNat = u64At b off := by
  have hlt := u64At_lt b off
  unfold s64At
  split <;> omega

/-- Re-encoding the signed 64-bit value read from the first eight bytes gives those eight
bytes. -/
theorem be64_s64At_zero (l : List Byte) (h : 8 ≤ l.length) : be64 (s64At l 0) = l.take 8 := by
  have hu := toNat_s64At l 0
  revert hu
  match l, h with
  | b0 :: b1 :: b2 :: b3 :: b4 :: b5 :: b6 :: b7 :: rest, _ =>
    have h0 := b0.isLt
    have h1 := b1.isLt
    have h2 := b2.isLt
    have h3 := b3.isLt
    have h4 := b4.isLt
    have h5 := b5.isLt
    have h6 := b6.isLt
    have h7 := b7.isLt
    intro hu
    simp only [be64, hu]
    simp only [natByte, u64At, byteAt, List.getD_cons_zero, List.getD_cons_succ,
      List.take_succ_cons, List.take_zero, List.cons.injEq, and_true]
    refine ⟨?_, ?_, ?_, ?_, ?_, ?_, ?_, ?_⟩ <;> apply Fin.ext <;> simp only [] <;> omega

theorem be64_s64At (b : List Byte) (off : Nat) (h : off + 8 ≤ b.length) :
    be64 (s64At b off) = bytesAt b off (off + 8) := by
  have h0 := s64At_drop b off 0
  rw [Nat.add_zero] at h0
  rw [← h0, be64_s64At_zero _ (by rw [List.length_drop]; omega), bytesAt,
    Nat.add_sub_cancel_left]

/-- The encoding of the record laid out in a buffer whose frame fits is the frame. -/
theorem encode_fieldsOf (b : List Byte) (h : 20 + emailLenOf b + ipLenOf b ≤ b.length) :
    encode (fieldsOf b) = b.take (20 + emailLenOf b + ipLenOf b) := by
  have hlenE : (bytesAt b 4 (4 + emailLenOf b)).length = emailLenOf b := by
    rw [length_bytesAt _ _ _ (by omega)]
    omega
  have hlenI : (bytesAt b (16 + emailLenOf b) (16 + emailLenOf b + ipLenOf b)).length
      = ipLenOf b := by
    rw [length_bytesAt _ _ _ (by omega)]
    omega
  have p1 : be32 (emailLenOf b) = bytesAt b 0 4 := be32_u32At b 0 (by omega)
  have p3 : be64 (s64At b (4 + emailLenOf b)) =
      bytesAt b (4 + emailLenOf b) (12 + emailLenOf b) := by
    rw [be64_s64At b _ (by omega)]
    congr 1
    omega
  have p4 : be32 (ipLenOf b) = bytesAt b (12 + emailLenOf b) (16 + emailLenOf b) := by
    unfold ipLenOf
    rw [be32_u32At b _ (by omega)]
    congr 1
    omega
  have p6 : be32 (u32At b (16 + emailLenOf b + ipLenOf b)) =
      bytesAt b (16 + emailLenOf b + ipLenOf b) (20 + emailLenOf b + ipLenOf b) := by
    rw [be32_u32At b _ (by omega)]
    congr 1
    omega
  simp only [encode, fieldsOf, hlenE, hlenI, p1, p3, p4, p6]
  rw [bytesAt_append b _ _ _ (by omega) (by omega), bytesAt_append b _ _ _ (by omega) (by omega),
    bytesAt_append b _ _ _ (by omega) (by omega), bytesAt_append b _ _ _ (by omega) (by omega),
    bytesAt_append b _ _ _ (by omega) (by omega), bytesAt_zero]

/-- A successful decode reports the record laid out in the buffer, and the frame fits. -/
theorem fieldsOf_of_decodes (b : List Byte) (r : Record) (out : List Line)
    (h : parseBinaryMessage ⟨b, out⟩ = (⟨b, out ++ r.report⟩, .nil)) :
    r = fieldsOf b ∧ 20 + emailLenOf b + ipLenOf b ≤ b.length := by
  have hfit := fits_of_nil ⟨b, out⟩ (by rw [h])
  have hok := parseBinaryMessage_of_fits ⟨b, out⟩ hfit
  rw [h] at hok
  simp only [Process.reported, Prod.mk.injEq, Process.mk.injEq, true_and, and_true,
    List.append_cancel_left_eq] at hok
  exact ⟨Record.report_injective _ _ hok, hfit⟩

/-- C11. Index safety (Go `int` 64 bits wide, so a `uint32` length is a non-negative `int` and
`offset + length` does not overflow): for every buffer, every slice expression the decoder
evaluates has `0 ≤ low ≤ high ≤ len(data)` and yields its bytes, the decoder never panics, and
it always returns either `nil` (a record) or an error. -/
theorem parseBinaryMessage_index_safe (p : Process) :
    (∀ s ∈ sliceExprs p.data,
        0 ≤ s.1 ∧ s.1 ≤ s.2 ∧ s.2 ≤ p.data.length ∧ (slice p.data s.1 s.2).isSome = true) ∧
      (parseBinaryMessage p).2 ≠ .panicked ∧
      ((parseBinaryMessage p).2 = .nil ∨ ∃ e, (parseBinaryMessage p).2 = .err e) := by
  have hb : ∀ s ∈ sliceExprs p.data, s.1 ≤ s.2 ∧ s.2 ≤ p.data.length := by
    intro s hs
    rw [sliceExprs_eq] at hs
    split_ifs at hs <;>
      simp only [List.mem_cons, List.mem_singleton, List.not_mem_nil, or_false] at hs
    · rcases hs with hs
      subst hs
      simp only []
      omega
    · rcases hs with hs | hs <;> subst hs <;> simp only [] <;> omega
    · rcases hs with hs | hs | hs <;> subst hs <;> simp only [] <;> omega
    · rcases hs with hs | hs | hs | hs <;> subst hs <;> simp only [] <;> omega
    · rcases hs with hs | hs | hs | hs | hs <;> subst hs <;> simp only [] <;> omega
    · rcases hs with hs | hs | hs | hs | hs | hs <;> subst hs <;> simp only [] <;> omega
  refine ⟨?_, ?_, ?_⟩
  · intro s hs
    obtain ⟨h1, h2⟩ := hb s hs
    refine ⟨Nat.zero_le _, h1, h2, ?_⟩
    rw [slice_eq _ _ _ h1 h2]
    rfl
  · rcases parseBinaryMessage_cases p with h | ⟨e, h⟩ <;> rw [h] <;> simp
  · rcases parseBinaryMessage_cases p with h | ⟨e, h⟩
    · exact Or.inl (by rw [h])
    · exact Or.inr ⟨e, by rw [h]⟩

/-- C12. Dead header check: for no buffer does decoding return the
`insufficient data for email length` error; once the coarse check has let a buffer of at
least 16 bytes through, the check `offset+4 > len(data)` at offset 0 cannot fire. -/
theorem parseBinaryMessage_never_emailLength (p : Process) :
    (parseBinaryMessage p).2 ≠ .err .emailLength ∧
      (¬ p.data.length < 16 → ¬ 0 + 4 > p.data.length) ∧
      ParseError.emailLength.message = "insufficient data for email length" := by
  refine ⟨?_, fun h => by omega, rfl⟩
  rw [parseBinaryMessage_eq]
  split_ifs <;> simp

/-- C13. Re-encoding gives back the consumed bytes: for every buffer `b` that decodes
successfully to `(email, lastSeen, ip, port)`, the wire encoding of that record is exactly
the first `20 + len(email) + len(ip)` bytes of `b`; so a buffer of exactly that length is
reproduced, and two such buffers that decode to the same record are equal. -/
theorem encode_of_decodes (b : List Byte) (r : Record) (out : List Line)
    (h : parseBinaryMessage ⟨b, out⟩ = (⟨b, out ++ r.report⟩, .nil)) :
    encode r = b.take (20 + r.email.length + r.ip.length) ∧
      20 + r.email.length + r.ip.length ≤ b.length ∧
      (b.length = 20 + r.email.length + r.ip.length → encode r = b) ∧
      ∀ (b2 : List Byte) (out2 : List Line),
        parseBinaryMessage ⟨b2, out2⟩ = (⟨b2, out2 ++ r.report⟩, .nil) →
        b.length = 20 + r.email.length + r.ip.length →
        b2.length = 20 + r.email.length + r.ip.length → b2 = b := by
  have key : ∀ (c : List Byte) (o : List Line),
      parseBinaryMessage ⟨c, o⟩ = (⟨c, o ++ r.report⟩, .nil) →
      encode r = c.take (20 + r.email.length + r.ip.length) ∧
        20 + r.email.length + r.ip.length ≤ c.length := by
    intro c o hc
    obtain ⟨hr, hfit⟩ := fieldsOf_of_decodes c r o hc
    have hE : r.email.length = emailLenOf c := by
      rw [hr]
      simp only [fieldsOf]
      rw [length_bytesAt _ _ _ (by omega)]
      omega
    have hI : r.ip.length = ipLenOf c := by
      rw [hr]
      simp only [fieldsOf]
      rw [length_bytesAt _ _ _ (by omega)]
      omega
    rw [hE, hI]
    exact ⟨by rw [hr]; exact encode_fieldsOf c hfit, hfit⟩
  obtain ⟨h1, h2⟩ := key b out h
  refine ⟨h1, h2, ?_, ?_⟩
  · intro hl
    rw [h1, ← hl, List.take_length]
  · intro b2 out2 hd hl hl2
    obtain ⟨h3, _⟩ := key b2 out2 hd
    rw [← hl, List.take_length] at h1
    rw [← hl2, List.take_length] at h3
    rw [← h1, ← h3]

/-- Scenario A followed by three stray bytes: the encoding of what is decoded is the first
38 bytes. -/
theorem encode_of_decodes_scenarioA :
    parseBinaryMessage ⟨encode scenarioA ++ [1, 2, 3], []⟩ =
        (⟨encode scenarioA ++ [1, 2, 3], [] ++ scenarioA.report⟩, .nil) ∧
      encode scenarioA = (encode scenarioA ++ [1, 2, 3]).take 38 ∧
      encode scenarioA =
        (encode scenarioA ++ [1, 2, 3]).take
          (20 + scenarioA.email.length + scenarioA.ip.length) :=
  ⟨by decide, by decide,
   (encode_of_decodes (encode scenarioA ++ [1, 2, 3]) scenarioA [] (by decide)).1⟩

/-! ## The receive loop -/

theorem take_min_length (l : List Byte) (k : Nat) : l.take (min l.length k) = l.take k := by
  by_cases h : l.length ≤ k
  · rw [Nat.min_eq_left h, List.take_length, List.take_of_length_le h]
  · rw [Nat.min_eq_right (by omega)]

/-- What `readFrom` does to a buffer of 1024 bytes: the first `n` bytes are the payload cut
at 1024 bytes, and the buffer keeps its length. -/
theorem readFrom_spec (buffer payload : List Byte) (h : buffer.length = 1024) :
    (readFrom buffer payload).1 = min payload.length 1024 ∧
      (readFrom buffer payload).2.length = 1024 ∧
      (readFrom buffer payload).2.take (readFrom buffer payload).1 = payload.take 1024 ∧
      slice (readFrom buffer payload).2 0 (readFrom buffer payload).1 =
        some (payload.take 1024) := by
  have hlen : (readFrom buffer payload).2.length = 1024 := by
    simp only [readFrom, h, List.length_append, List.length_take, List.length_drop]
    omega
  have htake : (readFrom buffer payload).2.take (readFrom buffer payload).1
      = payload.take 1024 := by
    simp only [readFrom, h]
    rw [List.take_append_of_le_length (by simp), List.take_take, Nat.min_self,
      take_min_length]
  refine ⟨by simp [readFrom, h], hlen, htake, ?_⟩
  rw [slice_eq _ _ _ (Nat.zero_le _) (by rw [hlen]; simp [readFrom, h]), bytesAt_zero, htake]

/-- A failed read: one line on standard error, no decoder call, the loop goes on. -/
theorem step_failed (s : Listener) (err : String) (written : List Byte)
    (hrun : s.running = true) :
    step s (.failed err written) =
      { buffer := (readFrom s.buffer written).2
        stdout := s.stdout
        stderr := s.stderr ++ [.errorReadingPacket err]
        calls := s.calls
        running := true } := by
  simp [step, hrun]

/-- A received packet: the decoder is called on the payload cut at 1024 bytes, the report of
the packet is printed, the loop goes on. -/
theorem step_packet (s : Listener) (payload : List Byte) (addr : String)
    (hlen : s.buffer.length = 1024) (hrun : s.running = true) :
    step s (.packet payload addr) =
      { buffer := (readFrom s.buffer payload).2
        stdout := s.stdout ++ packetReport (payload.take 1024) addr
        stderr := s.stderr
        calls := s.calls ++ [payload.take 1024]
        running := true } := by
  obtain ⟨_, _, h3, h4⟩ := readFrom_spec s.buffer payload hlen
  have hbuf : payload.take 1024 ++
      (readFrom s.buffer payload).2.drop (readFrom s.buffer payload).1 =
        (readFrom s.buffer payload).2 := by
    rw [← h3, List.take_append_drop]
  simp only [step, hrun, if_true, h4, packetReport]
  rcases parseBinaryMessage_cases ⟨payload.take 1024, []⟩ with h | ⟨e, h⟩
  · rw [h]
    simp [Process.reported, hbuf]
  · rw [h]
    simp [hbuf]

/-- Every iteration keeps the buffer at 1024 bytes and the loop running. -/
theorem step_keeps (s : Listener) (ev : ReadEvent)
    (hlen : s.buffer.length = 1024) (hrun : s.running = true) :
    (step s ev).buffer.length = 1024 ∧ (step s ev).running = true ∧
      (step s ev).stdout = s.stdout ++ eventStdout ev ∧
      (step s ev).stderr = s.stderr ++ eventStderr ev ∧
      (step s ev).calls = s.calls ++ (eventCall ev).toList := by
  cases ev with
  | packet payload addr =>
    rw [step_packet s payload addr hlen hrun]
    exact ⟨(readFrom_spec s.buffer payload hlen).2.1, rfl, rfl, by simp [eventStderr], rfl⟩
  | failed err written =>
    rw [step_failed s err written hrun]
    exact ⟨(readFrom_spec s.buffer written hlen).2.1, rfl, by simp [eventStdout], rfl,
      by simp [eventCall]⟩

theorem run_cons (s : Listener) (ev : ReadEvent) (evs : List ReadEvent) :
    run s (ev :: evs) = run (step s ev) evs := rfl

/-- The loop over any sequence of reads: it is still running afterwards, and what it wrote
is the reports of the reads, one after the other. -/
theorem run_keeps (evs : List ReadEvent) :
    ∀ s : Listener, s.buffer.length = 1024 → s.running = true →
      (run s evs).buffer.length = 1024 ∧ (run s evs).running = true ∧
        (run s evs).stdout = s.stdout ++ evs.flatMap eventStdout ∧
        (run s evs).stderr = s.stderr ++ evs.flatMap eventStderr ∧
        (run s evs).calls = s.calls ++ evs.filterMap eventCall := by
  induction evs with
  | nil =>
    intro s hlen hrun
    simp [run, hlen, hrun]
  | cons ev evs ih =>
    intro s hlen hrun
    obtain ⟨k1, k2, k3, k4, k5⟩ := step_keeps s ev hlen hrun
    obtain ⟨i1, i2, i3, i4, i5⟩ := ih (step s ev) k1 k2
    rw [run_cons]
    refine ⟨i1, i2, ?_, ?_, ?_⟩
    · rw [i3, k3]
      simp
    · rw [i4, k4]
      simp
    · rw [i5, k5]
      cases h : eventCall ev <;> simp [List.filterMap_cons, h]

/-- The report of a packet holds exactly one blank line, its last: no decoded line and no
error line is blank. -/
theorem count_blank_packetReport (data : List Byte) (addr : String) :
    (packetReport data addr).count .blank = 1 := by
  have hd : ((parseBinaryMessage ⟨data, []⟩).1.stdout.map Output.decoded).count .blank = 0 := by
    rw [List.count_eq_zero]
    intro hm
    rw [List.mem_map] at hm
    obtain ⟨l, _, hl⟩ := hm
    cases hl
  simp only [packetReport, List.count_append, hd]
  split <;> simp [List.count_cons]

/-- Each read writes exactly one report: one line on standard error for a failed read, one
block closed by its blank line on standard output for a packet. -/
theorem one_report (ev : ReadEvent) :
    (eventStdout ev).count .blank + (eventStderr ev).length = 1 := by
  cases ev with
  | packet payload addr => simp [eventStdout, eventStderr, count_blank_packetReport]
  | failed err written => simp [eventStdout, eventStderr]

theorem reports_count (evs : List ReadEvent) :
    (evs.flatMap eventStdout).count .blank + (evs.flatMap eventStderr).length = evs.length := by
  induction evs with
  | nil => rfl
  | cons ev evs ih =>
    have h := one_report ev
    simp only [List.flatMap_cons, List.count_append, List.length_append, List.length_cons]
    omega

/-- C14. Packet independence despite the reused buffer: in an iteration that receives a packet,
with `n` the number of bytes the read filled (`n ≤ 1024`), the decoder is called once, on
exactly the first `n` bytes of the 1024-byte buffer; these are the payload, cut at 1024
bytes; the decoder leaves the buffer as the read filled it; and the report printed for the
packet is a function of that payload and the sender alone, the same from any other state
of the loop, whatever bytes earlier packets left in the buffer. -/
theorem step_packet_independent (s s2 : Listener) (payload : List Byte) (addr : String)
    (hlen : s.buffer.length = 1024) (hrun : s.running = true)
    (hlen2 : s2.buffer.length = 1024) (hrun2 : s2.running = true) :
    (readFrom s.buffer payload).1 = min payload.length 1024 ∧
      (readFrom s.buffer payload).1 ≤ 1024 ∧
      (step s (.packet payload addr)).calls =
        s.calls ++ [(readFrom s.buffer payload).2.take (readFrom s.buffer payload).1] ∧
      (readFrom s.buffer payload).2.take (readFrom s.buffer payload).1 = payload.take 1024 ∧
      (step s (.packet payload addr)).buffer = (readFrom s.buffer payload).2 ∧
      (step s (.packet payload addr)).stdout =
        s.stdout ++ packetReport (payload.take 1024) addr ∧
      (step s2 (.packet payload addr)).stdout =
        s2.stdout ++ packetReport (payload.take 1024) addr ∧
      (step s2 (.packet payload addr)).calls = s2.calls ++ [payload.take 1024] := by
  obtain ⟨h1, _, h3, _⟩ := readFrom_spec s.buffer payload hlen
  rw [step_packet s payload addr hlen hrun, step_packet s2 payload addr hlen2 hrun2, h3]
  refine ⟨h1, ?_, rfl, rfl, rfl, rfl, rfl, rfl⟩
  rw [h1]
  exact Nat.min_le_right _ _

/-- Scenario B received after the longer Scenario A, whose bytes 20 to 37 are still in the
buffer (byte 22 is 11), and received by a fresh listener: the same report. -/
theorem step_packet_independent_after_longer :
    (usedListener.buffer.length = 1024 ∧ usedListener.running = true ∧
      freshListener.buffer.length = 1024 ∧ freshListener.running = true ∧
      byteAt usedListener.buffer 22 = 11 ∧ byteAt freshListener.buffer 22 = 0) ∧
    (step usedListener (.packet (encode scenarioB) someAddr)).stdout =
      usedListener.stdout ++ packetReport ((encode scenarioB).take 1024) someAddr ∧
    (step freshListener (.packet (encode scenarioB) someAddr)).stdout =
      freshListener.stdout ++ packetReport ((encode scenarioB).take 1024) someAddr ∧
    packetReport ((encode scenarioB).take 1024) someAddr =
      [.receivedBroadcast, .sender someAddr, .decoded (.email []), .decoded (.lastSeen 0),
       .decoded (.ipAddress []), .decoded (.port 0), .blank] := by
  have hf : freshListener.buffer.length = 1024 := List.length_replicate _ _
  have hb : usedListener.buffer.length = 1024 ∧ usedListener.running = true :=
    ⟨(step_keeps freshListener _ hf rfl).1, (step_keeps freshListener _ hf rfl).2.1⟩
  have h := step_packet_independent usedListener freshListener (encode scenarioB) someAddr
    hb.1 hb.2 hf rfl
  have hu : usedListener.buffer =
      (encode scenarioA).take (min (encode scenarioA).length freshListener.buffer.length) ++
        freshListener.buffer.drop (min (encode scenarioA).length freshListener.buffer.length) := by
    unfold usedListener
    rw [step_packet _ _ _ hf rfl]
    rfl
  have h22 : byteAt usedListener.buffer 22 = 11 := by
    rw [hu, hf, byteAt_append_left _ _ _ (by decide)]
    decide
  have h0 : byteAt freshListener.buffer 22 = 0 := by
    have e : freshListener.buffer = List.replicate 1024 0 := rfl
    rw [e, byteAt, List.getD_eq_getElem?_getD, List.getElem?_replicate]
    rfl
  refine ⟨⟨hb.1, hb.2, hf, rfl, h22, h0⟩, h.2.2.2.2.2.1, h.2.2.2.2.2.2.1, ?_⟩
  decide

/-- C15. Per-packet errors never stop the loop.  From any running state of the loop: a failed
read writes one `Error reading packet` line on standard error, nothing on standard output,
calls no decoder and leaves the loop running; a packet whose decode fails gets one
`Error parsing message` line naming the failure, inside its block, and leaves the loop
running; and over any sequence of reads the loop is still running at the end, every read
has been processed in order (what was written is the reports of the reads one after the
other, and the decoder was called once per packet), and each read wrote exactly one
report. -/
theorem run_never_stops (s : Listener) (evs : List ReadEvent)
    (hlen : s.buffer.length = 1024) (hrun : s.running = true) :
    (∀ (err : String) (written : List Byte),
        (step s (.failed err written)).stderr = s.stderr ++ [.errorReadingPacket err] ∧
          (step s (.failed err written)).stdout = s.stdout ∧
          (step s (.failed err written)).calls = s.calls ∧
          (step s (.failed err written)).running = true) ∧
      (∀ (payload : List Byte) (addr : String) (e : ParseError),
        (parseBinaryMessage ⟨payload.take 1024, []⟩).2 = .err e →
          (step s (.packet payload addr)).stdout =
              s.stdout ++ [.receivedBroadcast, .sender addr, .errorParsingMessage e, .blank] ∧
            (step s (.packet payload addr)).stderr = s.stderr ∧
            (step s (.packet payload addr)).running = true) ∧
      (run s evs).running = true ∧
      (run s evs).stdout = s.stdout ++ evs.flatMap eventStdout ∧
      (run s evs).stderr = s.stderr ++ evs.flatMap eventStderr ∧
      (run s evs).calls = s.calls ++ evs.filterMap eventCall ∧
      (∀ ev ∈ evs, (eventStdout ev).count .blank + (eventStderr ev).length = 1) ∧
      (run s evs).stdout.count .blank + (run s evs).stderr.length =
        s.stdout.count .blank + s.stderr.length + evs.length := by
  obtain ⟨_, r2, r3, r4, r5⟩ := run_keeps evs s hlen hrun
  refine ⟨?_, ?_, r2, r3, r4, r5, fun ev _ => one_report ev, ?_⟩
  · intro err written
    rw [step_failed s err written hrun]
    exact ⟨rfl, rfl, rfl, rfl⟩
  · intro payload addr e he
    rw [step_packet s payload addr hlen hrun]
    refine ⟨?_, rfl, rfl⟩
    have hout : (parseBinaryMessage ⟨payload.take 1024, []⟩).1.stdout = [] := by
      rcases parseBinaryMessage_cases ⟨payload.take 1024, []⟩ with h | ⟨e2, h⟩
      · rw [h] at he
        cases he
      · rw [h]
    simp only [packetReport, hout, he, List.map_nil, List.append_nil]
    rfl
  · have hc := reports_count evs
    rw [r3, r4, List.count_append, List.length_append]
    omega

/-- A failed read, then a 10-byte packet, then Scenario B: one line on standard error, two
blocks on standard output, two decoder calls, and the loop still running. -/
theorem run_never_stops_threeReads :
    (freshListener.buffer.length = 1024 ∧ freshListener.running = true) ∧
    (run freshListener threeReads).running = true ∧
    (run freshListener threeReads).stderr =
      freshListener.stderr ++ threeReads.flatMap eventStderr ∧
    (run freshListener threeReads).stdout =
      freshListener.stdout ++ threeReads.flatMap eventStdout ∧
    (run freshListener threeReads).calls =
      freshListener.calls ++ threeReads.filterMap eventCall ∧
    threeReads.flatMap eventStderr = [.errorReadingPacket someReadError] ∧
    threeReads.flatMap eventStdout =
      [.receivedBroadcast, .sender someAddr, .errorParsingMessage .packetTooShort, .blank,
       .receivedBroadcast, .sender someAddr, .decoded (.email []), .decoded (.lastSeen 0),
       .decoded (.ipAddress []), .decoded (.port 0), .blank] ∧
    threeReads.filterMap eventCall = [List.replicate 10 0, encode scenarioB] := by
  have hf : freshListener.buffer.length = 1024 := List.length_replicate _ _
  have h := run_never_stops freshListener threeReads hf rfl
  exact ⟨⟨hf, rfl⟩, h.2.2.1, h.2.2.2.2.1, h.2.2.2.1, h.2.2.2.2.2.1, by decide, by decide,
    by decide⟩

end UdpListener
